import Mathlib

/-!
Shallow embedding of the ProbingMap component (src/ht/ht.h): an open-addressing
hash table with linear probing, FNV-1a hashing and doubling growth.

Modelling conventions:
* a C string is a `CStr`: a pointer identity (`ptr`) plus the byte content
  before the terminator (`bytes`); `strcmp` equality is equality of `bytes`;
* `void*` values are `Option Nat`, with `none` for the NULL pointer;
* 64-bit unsigned arithmetic is `Nat` arithmetic taken `% 2 ^ 64`;
* the slot array is a `List HtEntry` whose length is the allocation size;
* the unbounded C probe loops are given fuel equal to `capacity`: visiting
  `capacity` successive slots covers every slot once, so the fuel model
  returns `some` exactly when the C loop terminates without wrapping a full
  cycle; `none` marks the undefined or non-terminating executions
  (out-of-bounds slot access, `strcmp` on a NULL key, a full cycle).
-/

namespace Ht

/-- A C string: pointer identity plus the bytes before the terminator. -/
structure CStr where
  ptr : Nat
  bytes : List Nat
deriving DecidableEq, Repr

/-- One slot of the table; `calloc` zero-fill gives `⟨none, none⟩`. -/
structure HtEntry where
  key : Option CStr
  value : Option Nat
deriving DecidableEq, Repr

/-- The `Map` struct: slot array, capacity and item count. -/
structure Map where
  ht : List HtEntry
  capacity : Nat
  items : Nat
deriving DecidableEq, Repr

def U64 : Nat := 2 ^ 64

def FNV_OFFSET_BASIS : Nat := 14695981039346656037

def FNV_PRIME : Nat := 1099511628211

/-- `ht_length` returns the item count. -/
def ht_length (m : Map) : Nat := m.items

/-- `ht_new_map`: a zeroed slot array of the requested capacity, 0 items. -/
def ht_new_map (capacity : Nat) : Map :=
  { ht := List.replicate capacity ⟨none, none⟩, capacity := capacity, items := 0 }

/-- `ht__hash`: FNV-1a over the key bytes, 64-bit wraparound arithmetic. -/
def ht__hash (key : List Nat) : Nat :=
  key.foldl (fun hash b => ((hash ^^^ b % 256) * FNV_PRIME) % U64) FNV_OFFSET_BASIS

/-- The probe loop of `ht_entry_set`, with explicit fuel.  Each fuel unit
examines one slot: an empty slot stores the pair and bumps `items`, a slot
whose key compares equal updates the value in place and returns the stored
key, otherwise the index steps forward, wrapping at `capacity`. -/
def ht_entry_set_loop (m : Map) (key : CStr) (value : Option Nat) :
    Nat → Nat → Option (Map × CStr)
  | _index, 0 => none
  | index, fuel + 1 =>
    match m.ht.get? index with
    | none => none
    | some slot =>
      match slot.value with
      | none =>
        some ({ m with ht := m.ht.set index ⟨some key, value⟩,
                       items := m.items + 1 }, key)
      | some _ =>
        match slot.key with
        | none => none
        | some sk =>
          if sk.bytes = key.bytes then
            some ({ m with ht := m.ht.set index ⟨some sk, value⟩ }, sk)
          else
            ht_entry_set_loop m key value
              (if index + 1 ≥ m.capacity then 0 else index + 1) fuel

/-- `ht_entry_set`, entered at `index`, fuel `capacity`. -/
def ht_entry_set (m : Map) (index : Nat) (key : CStr) (value : Option Nat) :
    Option (Map × CStr) :=
  ht_entry_set_loop m key value index m.capacity

/-- Bounds-checked `List.set`; writing out of bounds is undefined in C. -/
def setChecked (l : List HtEntry) (i : Nat) (e : HtEntry) :
    Option (List HtEntry) :=
  if i < l.length then some (l.set i e) else none

/-- The copy loop of `ht_expand`: for `i` from 0 to `items - 1`, if slot `i`
of the old array has a non-NULL key, copy it to index `i` of the new array. -/
def copyEntries (old : List HtEntry) (n : Nat) (acc : List HtEntry) :
    Option (List HtEntry) :=
  (List.range n).foldlM (fun acc i =>
    match old.get? i with
    | none => none
    | some e => if e.key.isSome then setChecked acc i e else some acc) acc

/-- `ht_expand`: double the capacity, failing (return -1) when the doubling
wraps around `size_t`; allocate a zeroed array of the new size and run the
positional copy loop; `items` is unchanged. -/
def ht_expand (m : Map) : Option Map :=
  if m.capacity * 2 % U64 < m.capacity then none
  else
    match copyEntries m.ht (ht_length m)
        (List.replicate (m.capacity * 2 % U64) ⟨none, none⟩) with
    | none => none
    | some new_entries =>
      some { ht := new_entries, capacity := m.capacity * 2 % U64,
             items := m.items }

/-- `ht_set`: NULL key fails at once; if `items ≥ capacity / 2` grow first,
aborting on growth failure; then probe from `hash(key) mod capacity`.
The first component is the state of the map object after the call, the
second the returned `const char *` (`none` for a NULL return). -/
def ht_set (m : Map) (key : Option CStr) (value : Option Nat) :
    Map × Option CStr :=
  match key with
  | none => (m, none)
  | some k =>
    match (if ht_length m ≥ m.capacity / 2 then ht_expand m else some m) with
    | none => (m, none)
    | some m1 =>
      match ht_entry_set m1 (ht__hash k.bytes % m1.capacity) k value with
      | none => (m1, none)
      | some (m2, r) => (m2, some r)

/-- The probe loop of `ht_get`, with explicit fuel: an empty slot returns
NULL (`some none`, "not found"), a matching key returns its value. -/
def ht_get_loop (m : Map) (key : CStr) : Nat → Nat → Option (Option Nat)
  | _index, 0 => none
  | index, fuel + 1 =>
    match m.ht.get? index with
    | none => none
    | some slot =>
      match slot.value with
      | none => some none
      | some v =>
        match slot.key with
        | none => none
        | some sk =>
          if sk.bytes = key.bytes then some (some v)
          else
            ht_get_loop m key
              (if index + 1 ≥ m.capacity then 0 else index + 1) fuel

/-- `ht_get`, entered at `hash(key) mod capacity`, fuel `capacity`. -/
def ht_get (m : Map) (key : CStr) : Option (Option Nat) :=
  ht_get_loop m key (ht__hash key.bytes % m.capacity) m.capacity

/-- Map states reachable from `m0` by a sequence of `ht_set` calls. -/
inductive ReachableFrom (m0 : Map) : Map → Prop
  | refl : ReachableFrom m0 m0
  | step (m : Map) (key : Option CStr) (value : Option Nat) :
      ReachableFrom m0 m → ReachableFrom m0 (ht_set m key value).fst

/-- FNV-1a as the specification words it: XOR the accumulator with the byte,
then multiply by the 64-bit FNV prime, with unsigned 64-bit wraparound. -/
def fnv1a64_go : List Nat → Nat → Nat
  | [], acc => acc
  | b :: bs, acc => fnv1a64_go bs ((acc ^^^ b % 256) * 1099511628211 % 2 ^ 64)

/-- The full spec-side digest: start from the 64-bit FNV offset basis. -/
def fnv1a64_spec (key : List Nat) : Nat := fnv1a64_go key 14695981039346656037

/-- Number of occupied slots (value not NULL). -/
def occCount (l : List HtEntry) : Nat := l.countP (fun e => e.value.isSome)

/-- The state invariant maintained by every reachable map: the slot array
has exactly `capacity` slots, the capacity fits in `size_t`, the load
factor is at most 50%, at most `items` slots are occupied, and every
occupied slot carries a non-NULL key. -/
def Inv (m : Map) : Prop :=
  m.ht.length = m.capacity ∧ m.capacity < U64 ∧
  m.items ≤ m.capacity / 2 ∧ occCount m.ht ≤ m.items ∧
  ∀ e ∈ m.ht, e.value.isSome → e.key.isSome

/-! ## Concrete keys used in the scenarios (ASCII bytes) -/

def fooK : CStr := ⟨1, [102, 111, 111]⟩

def barK : CStr := ⟨2, [98, 97, 114]⟩

def bazK : CStr := ⟨3, [98, 97, 122]⟩

def acK : CStr := ⟨4, [97, 99]⟩

/-- A key pointer with byte content "k". -/
def kOld : CStr := ⟨1, [107]⟩

/-- A distinct key pointer with the same byte content "k". -/
def kNew : CStr := ⟨2, [107]⟩

/-- State after `create(4); set(kOld, 5)`. -/
def c9pre : Map := (ht_set (ht_new_map 4) (some kOld) (some 5)).fst

/-- State after the further update `set(kNew, 6)` through the other pointer. -/
def c9post : Map := (ht_set c9pre (some kNew) (some 6)).fst

/-- State after `create(4); set("foo",1); set("bar",2)`. -/
def c1pre : Map :=
  (ht_set (ht_set (ht_new_map 4) (some fooK) (some 1)).fst
    (some barK) (some 2)).fst

/-- State after the further, resize-triggering `set("baz",3)`. -/
def c1post : Map := (ht_set c1pre (some bazK) (some 3)).fst

/-- State after `create(4); set("foo",2); set("bar",1); set("bar",3)`. -/
def c2state : Map :=
  (ht_set (ht_set (ht_set (ht_new_map 4) (some fooK) (some 2)).fst
    (some barK) (some 1)).fst (some barK) (some 3)).fst

/-- State after `create(4); set("ac",1); set("bar",2); set("ac",7)`. -/
def c4state : Map :=
  (ht_set (ht_set (ht_set (ht_new_map 4) (some acK) (some 1)).fst
    (some barK) (some 2)).fst (some acK) (some 7)).fst

/-! ## Structural lemmas about the probe loop, the copy loop and the
invariant -/

theorem entry_set_loop_some (m : Map) (key : CStr) (value : Option Nat) :
    ∀ (fuel index : Nat) (m' : Map) (r : CStr),
      ht_entry_set_loop m key value index fuel = some (m', r) →
      (∃ j slot, m.ht.get? j = some slot ∧ slot.value = none ∧
        m' = { m with ht := m.ht.set j ⟨some key, value⟩,
                      items := m.items + 1 } ∧ r = key) ∨
      (∃ j slot sk, m.ht.get? j = some slot ∧ slot.value.isSome ∧
        slot.key = some sk ∧ sk.bytes = key.bytes ∧
        m' = { m with ht := m.ht.set j ⟨some sk, value⟩ } ∧ r = sk) := by
  intro fuel
  induction fuel with
  | zero => intro index m' r h; simp [ht_entry_set_loop] at h
  | succ fuel ih =>
    intro index m' r h
    rw [ht_entry_set_loop] at h
    split at h
    · exact absurd h (by simp)
    · rename_i slot hslot
      split at h
      · rename_i hval
        simp only [Option.some.injEq, Prod.mk.injEq] at h
        exact Or.inl ⟨index, slot, hslot, hval, h.1.symm, h.2.symm⟩
      · rename_i v hval
        split at h
        · exact absurd h (by simp)
        · rename_i sk hkey
          split at h
          · rename_i hb
            simp only [Option.some.injEq, Prod.mk.injEq] at h
            exact Or.inr ⟨index, slot, sk, hslot, by simp [hval], hkey, hb,
              h.1.symm, h.2.symm⟩
          · exact ih _ m' r h

theorem occCount_set_le (l : List HtEntry) :
    ∀ (i : Nat) (e : HtEntry), occCount (l.set i e) ≤ occCount l + 1 := by
  induction l with
  | nil => intro i e; simp [occCount]
  | cons a l ih =>
    intro i e
    cases i with
    | zero =>
      simp only [List.set, occCount, List.countP_cons]
      have h1 : (if e.value.isSome = true then 1 else 0) ≤ 1 := by split <;> omega
      omega
    | succ i =>
      simp only [List.set, occCount, List.countP_cons]
      have h2 := ih i e
      simp only [occCount] at h2
      omega

theorem occCount_set_of_occupied (l : List HtEntry) :
    ∀ (i : Nat) (e slot : HtEntry), l.get? i = some slot →
      slot.value.isSome → occCount (l.set i e) ≤ occCount l := by
  induction l with
  | nil => intro i e slot h; simp at h
  | cons a l ih =>
    intro i e slot h hocc
    cases i with
    | zero =>
      simp only [List.get?, Option.some.injEq] at h
      subst h
      simp only [List.set, occCount, List.countP_cons]
      have h1 : (if e.value.isSome = true then 1 else 0) ≤ 1 := by split <;> omega
      have h2 : (if a.value.isSome = true then 1 else 0) = 1 := by simp [hocc]
      omega
    | succ i =>
      simp only [List.get?] at h
      have h2 := ih i e slot h hocc
      simp only [List.set, occCount, List.countP_cons]
      simp only [occCount] at h2
      omega

theorem occCount_replicate_empty (n : Nat) :
    occCount (List.replicate n ⟨none, none⟩) = 0 := by
  induction n with
  | zero => rfl
  | succ n ih => simp [List.replicate, occCount, List.countP_cons] at ih ⊢

theorem copy_fold_facts (old : List HtEntry) :
    ∀ (idxs : List Nat) (acc out : List HtEntry),
      idxs.foldlM (fun acc i =>
          match old.get? i with
          | none => none
          | some e => if e.key.isSome then setChecked acc i e else some acc)
        acc = some out →
      out.length = acc.length ∧ occCount out ≤ occCount acc + idxs.length ∧
        ∀ e ∈ out, e ∈ acc ∨ e ∈ old := by
  intro idxs
  induction idxs with
  | nil =>
    intro acc out h
    simp only [List.foldlM] at h
    cases h
    exact ⟨rfl, by omega, fun e he => Or.inl he⟩
  | cons i idxs ih =>
    intro acc out h
    simp only [List.foldlM, Option.bind_eq_bind, Option.bind_eq_some] at h
    obtain ⟨acc1, hstep, hrest⟩ := h
    have hfacts : acc1.length = acc.length ∧ occCount acc1 ≤ occCount acc + 1 ∧
        ∀ e ∈ acc1, e ∈ acc ∨ e ∈ old := by
      split at hstep
      · exact absurd hstep (by simp)
      · rename_i e0 hget
        split at hstep
        · unfold setChecked at hstep
          split at hstep
          · cases hstep
            refine ⟨List.length_set acc i e0, occCount_set_le acc i e0,
              fun e he => ?_⟩
            rcases List.mem_or_eq_of_mem_set he with h1 | h1
            · exact Or.inl h1
            · exact Or.inr (h1 ▸ List.get?_mem hget)
          · exact absurd hstep (by simp)
        · cases hstep
          exact ⟨rfl, by omega, fun e he => Or.inl he⟩
    obtain ⟨hlen1, hocc1, hmem1⟩ := hfacts
    obtain ⟨hlen2, hocc2, hmem2⟩ := ih acc1 out hrest
    refine ⟨hlen2.trans hlen1, by simp [List.length_cons]; omega, fun e he => ?_⟩
    rcases hmem2 e he with h1 | h1
    · exact hmem1 e h1
    · exact Or.inr h1

theorem ht_expand_some (m m1 : Map) (h : ht_expand m = some m1) :
    m1.capacity = m.capacity * 2 % U64 ∧ m.capacity ≤ m1.capacity ∧
    m1.items = m.items ∧ m1.ht.length = m1.capacity ∧
    occCount m1.ht ≤ m.items ∧
    ∀ e ∈ m1.ht, e = ⟨none, none⟩ ∨ e ∈ m.ht := by
  unfold ht_expand at h
  split at h
  · exact absurd h (by simp)
  · rename_i hguard
    split at h
    · exact absurd h (by simp)
    · rename_i out hcopy
      cases h
      unfold copyEntries at hcopy
      obtain ⟨hlen, hocc, hmem⟩ := copy_fold_facts m.ht _ _ _ hcopy
      simp only [List.length_replicate, List.length_range] at hlen hocc
      rw [occCount_replicate_empty] at hocc
      refine ⟨rfl, Nat.le_of_not_lt hguard, rfl, hlen, by simpa using hocc,
        fun e he => ?_⟩
      rcases hmem e he with h1 | h1
      · exact Or.inl (List.eq_of_mem_replicate h1)
      · exact Or.inr h1

theorem expand_cap_double (m m1 : Map) (h : ht_expand m = some m1)
    (hcap : m.capacity < U64) : m1.capacity = m.capacity * 2 := by
  obtain ⟨h1, h2, -⟩ := ht_expand_some m m1 h
  unfold U64 at *
  omega

theorem inv_expand (m m1 : Map) (hm : Inv m) (hexp : ht_expand m = some m1) :
    Inv m1 := by
  obtain ⟨hlen, hcap, hload, hocc, hkeys⟩ := hm
  obtain ⟨hc1, hc2, hit, hl1, ho1, hmem⟩ := ht_expand_some m m1 hexp
  refine ⟨hl1, ?_, ?_, by omega, fun e he hv => ?_⟩
  · rw [hc1]; exact Nat.mod_lt _ (by unfold U64; omega)
  · rw [hit]
    exact hload.trans (Nat.div_le_div_right hc2)
  · rcases hmem e he with h1 | h1
    · subst h1; simp at hv
    · exact hkeys e h1 hv

theorem inv_new_map (c : Nat) (hc : c < U64) : Inv (ht_new_map c) := by
  refine ⟨List.length_replicate c _, hc, Nat.zero_le _,
    Nat.le_of_eq (occCount_replicate_empty c), fun e he hv => ?_⟩
  rw [List.eq_of_mem_replicate he] at hv
  simp at hv

theorem inv_loop_result (m1 : Map) (k : CStr) (v : Option Nat)
    (index fuel : Nat) (m2 : Map) (r : CStr) (hm : Inv m1)
    (hbound : 0 < m1.capacity → m1.items + 1 ≤ m1.capacity / 2)
    (h : ht_entry_set_loop m1 k v index fuel = some (m2, r)) : Inv m2 := by
  obtain ⟨hlen, hcap, hload, hocc, hkeys⟩ := hm
  rcases entry_set_loop_some m1 k v fuel index m2 r h with
    ⟨j, slot, hj, hval, hm2, hr⟩ | ⟨j, slot, sk, hj, hval, hkey, hb, hm2, hr⟩
  · have hjlt : j < m1.ht.length := by
      rcases List.get?_eq_some.1 hj with ⟨hlt, -⟩
      exact hlt
    have hpos : 0 < m1.capacity := by omega
    subst hm2
    refine ⟨by simpa [List.length_set] using hlen, hcap, hbound hpos,
      ?_, fun e he hv => ?_⟩
    · calc occCount (m1.ht.set j ⟨some k, v⟩) ≤ occCount m1.ht + 1 :=
          occCount_set_le m1.ht j _
        _ ≤ m1.items + 1 := by omega
    · rcases List.mem_or_eq_of_mem_set he with h1 | h1
      · exact hkeys e h1 hv
      · subst h1; simp
  · subst hm2
    refine ⟨by simpa [List.length_set] using hlen, hcap, hload,
      ?_, fun e he hv => ?_⟩
    · calc occCount (m1.ht.set j ⟨some sk, v⟩) ≤ occCount m1.ht :=
          occCount_set_of_occupied m1.ht j _ slot hj hval
        _ ≤ m1.items := hocc
    · rcases List.mem_or_eq_of_mem_set he with h1 | h1
      · exact hkeys e h1 hv
      · subst h1; simp

theorem inv_set (m : Map) (key : Option CStr) (value : Option Nat)
    (hm : Inv m) : Inv (ht_set m key value).fst := by
  cases key with
  | none => exact hm
  | some k =>
    by_cases htrig : ht_length m ≥ m.capacity / 2
    · simp only [ht_set, if_pos htrig]
      cases hexp : ht_expand m with
      | none => simp only [hexp]; exact hm
      | some m1 =>
        simp only [hexp]
        have hinv1 : Inv m1 := inv_expand m m1 hm hexp
        cases hprobe : ht_entry_set m1 (ht__hash k.bytes % m1.capacity) k value with
        | none => simp only [hprobe]; exact hinv1
        | some p =>
          obtain ⟨m2, r⟩ := p
          simp only [hprobe]
          have hbound : 0 < m1.capacity → m1.items + 1 ≤ m1.capacity / 2 := by
            intro hpos
            have hd := expand_cap_double m m1 hexp hm.2.1
            have hit := (ht_expand_some m m1 hexp).2.2.1
            have hload := hm.2.2.1
            unfold ht_length at htrig
            omega
          exact inv_loop_result m1 k value _ _ m2 r hinv1 hbound hprobe
    · simp only [ht_set, if_neg htrig]
      cases hprobe : ht_entry_set m (ht__hash k.bytes % m.capacity) k value with
      | none => simp only [hprobe]; exact hm
      | some p =>
        obtain ⟨m2, r⟩ := p
        simp only [hprobe]
        have hbound : 0 < m.capacity → m.items + 1 ≤ m.capacity / 2 := by
          intro hpos
          unfold ht_length at htrig
          omega
        exact inv_loop_result m k value _ _ m2 r hm hbound hprobe

theorem inv_reachable (m0 m : Map) (h0 : Inv m0)
    (h : ReachableFrom m0 m) : Inv m := by
  induction h with
  | refl => exact h0
  | step m key value _ ih => exact inv_set m key value ih

theorem cap_le_set (m : Map) (key : Option CStr) (value : Option Nat) :
    m.capacity ≤ (ht_set m key value).fst.capacity := by
  cases key with
  | none => exact Nat.le_refl _
  | some k =>
    by_cases htrig : ht_length m ≥ m.capacity / 2
    · simp only [ht_set, if_pos htrig]
      cases hexp : ht_expand m with
      | none => simp only [hexp]; exact Nat.le_refl _
      | some m1 =>
        simp only [hexp]
        have hle : m.capacity ≤ m1.capacity := (ht_expand_some m m1 hexp).2.1
        cases hprobe : ht_entry_set m1 (ht__hash k.bytes % m1.capacity) k value with
        | none => simp only [hprobe]; exact hle
        | some p =>
          obtain ⟨m2, r⟩ := p
          simp only [hprobe]
          rcases entry_set_loop_some m1 k value _ _ m2 r hprobe with
            ⟨j, slot, -, -, hm2, -⟩ | ⟨j, slot, sk, -, -, -, -, hm2, -⟩ <;>
            · subst hm2; exact hle
    · simp only [ht_set, if_neg htrig]
      cases hprobe : ht_entry_set m (ht__hash k.bytes % m.capacity) k value with
      | none => simp only [hprobe]; exact Nat.le_refl _
      | some p =>
        obtain ⟨m2, r⟩ := p
        simp only [hprobe]
        rcases entry_set_loop_some m k value _ _ m2 r hprobe with
          ⟨j, slot, -, -, hm2, -⟩ | ⟨j, slot, sk, -, -, -, -, hm2, -⟩ <;>
          · subst hm2; exact Nat.le_refl _

theorem cap_le_reachable (m0 m : Map) (h : ReachableFrom m0 m) :
    m0.capacity ≤ m.capacity := by
  induction h with
  | refl => exact Nat.le_refl _
  | step m key value _ ih => exact ih.trans (cap_le_set m key value)

theorem exists_empty_slot (l : List HtEntry) (h : occCount l < l.length) :
    ∃ j slot, l.get? j = some slot ∧ slot.value = none := by
  by_contra hno
  push_neg at hno
  have hall : ∀ e ∈ l, e.value.isSome = true := by
    intro e he
    rcases List.mem_iff_get?.1 he with ⟨n, hn⟩
    cases hv : e.value with
    | none => exact absurd hv (hno n e hn)
    | some v => rfl
  have hlen : occCount l = l.length := List.countP_eq_length.2 hall
  omega

theorem get_loop_finds (m : Map) (key : CStr)
    (hlen : m.ht.length = m.capacity)
    (hkeys : ∀ e ∈ m.ht, e.value.isSome → e.key.isSome) :
    ∀ (t i fuel : Nat), t < fuel → i < m.capacity →
      (∃ slot, m.ht.get? ((i + t) % m.capacity) = some slot ∧
        slot.value = none) →
      (ht_get_loop m key i fuel).isSome := by
  intro t
  induction t with
  | zero =>
    intro i fuel hf hi hempty
    obtain ⟨slot, hs, hv⟩ := hempty
    obtain ⟨fuel, rfl⟩ : ∃ f, fuel = f + 1 := ⟨fuel - 1, by omega⟩
    rw [Nat.add_zero, Nat.mod_eq_of_lt hi] at hs
    rw [ht_get_loop, hs]
    simp [hv]
  | succ t ih =>
    intro i fuel hf hi hempty
    obtain ⟨fuel, rfl⟩ : ∃ f, fuel = f + 1 := ⟨fuel - 1, by omega⟩
    have hcap : 0 < m.capacity := by omega
    have hi' : i < m.ht.length := by omega
    obtain ⟨slot0, hs0⟩ : ∃ s, m.ht.get? i = some s :=
      ⟨m.ht.get ⟨i, hi'⟩, List.get?_eq_get hi'⟩
    cases hv0 : slot0.value with
    | none =>
      rw [ht_get_loop, hs0]
      simp [hv0]
    | some v =>
      have hk0 : slot0.key.isSome := hkeys slot0 (List.get?_mem hs0) (by simp [hv0])
      obtain ⟨sk, hsk⟩ := Option.isSome_iff_exists.1 hk0
      by_cases hb : sk.bytes = key.bytes
      · rw [ht_get_loop, hs0]
        simp [hv0, hsk, hb]
      · rw [ht_get_loop, hs0]
        simp only [hv0, hsk, if_neg hb]
        have hstep : (if i + 1 ≥ m.capacity then 0 else i + 1) =
            (i + 1) % m.capacity := by
          split
          · rename_i hge
            have h1 : i + 1 = m.capacity := by omega
            rw [h1, Nat.mod_self]
          · rename_i hge
            rw [Nat.mod_eq_of_lt (by omega)]
        rw [hstep]
        apply ih ((i + 1) % m.capacity) fuel (by omega) (Nat.mod_lt _ hcap)
        obtain ⟨slot, hs, hv⟩ := hempty
        refine ⟨slot, ?_, hv⟩
        have h2 : ((i + 1) % m.capacity + t) % m.capacity =
            (i + (t + 1)) % m.capacity := by
          rw [Nat.mod_add_mod]
          congr 1
          omega
        rw [h2]
        exact hs

theorem set_loop_finds (m : Map) (key : CStr) (value : Option Nat)
    (hlen : m.ht.length = m.capacity)
    (hkeys : ∀ e ∈ m.ht, e.value.isSome → e.key.isSome) :
    ∀ (t i fuel : Nat), t < fuel → i < m.capacity →
      (∃ slot, m.ht.get? ((i + t) % m.capacity) = some slot ∧
        slot.value = none) →
      (ht_entry_set_loop m key value i fuel).isSome := by
  intro t
  induction t with
  | zero =>
    intro i fuel hf hi hempty
    obtain ⟨slot, hs, hv⟩ := hempty
    obtain ⟨fuel, rfl⟩ : ∃ f, fuel = f + 1 := ⟨fuel - 1, by omega⟩
    rw [Nat.add_zero, Nat.mod_eq_of_lt hi] at hs
    rw [ht_entry_set_loop, hs]
    simp [hv]
  | succ t ih =>
    intro i fuel hf hi hempty
    obtain ⟨fuel, rfl⟩ : ∃ f, fuel = f + 1 := ⟨fuel - 1, by omega⟩
    have hcap : 0 < m.capacity := by omega
    have hi' : i < m.ht.length := by omega
    obtain ⟨slot0, hs0⟩ : ∃ s, m.ht.get? i = some s :=
      ⟨m.ht.get ⟨i, hi'⟩, List.get?_eq_get hi'⟩
    cases hv0 : slot0.value with
    | none =>
      rw [ht_entry_set_loop, hs0]
      simp [hv0]
    | some v =>
      have hk0 : slot0.key.isSome := hkeys slot0 (List.get?_mem hs0) (by simp [hv0])
      obtain ⟨sk, hsk⟩ := Option.isSome_iff_exists.1 hk0
      by_cases hb : sk.bytes = key.bytes
      · rw [ht_entry_set_loop, hs0]
        simp [hv0, hsk, hb]
      · rw [ht_entry_set_loop, hs0]
        simp only [hv0, hsk, if_neg hb]
        have hstep : (if i + 1 ≥ m.capacity then 0 else i + 1) =
            (i + 1) % m.capacity := by
          split
          · rename_i hge
            have h1 : i + 1 = m.capacity := by omega
            rw [h1, Nat.mod_self]
          · rename_i hge
            rw [Nat.mod_eq_of_lt (by omega)]
        rw [hstep]
        apply ih ((i + 1) % m.capacity) fuel (by omega) (Nat.mod_lt _ hcap)
        obtain ⟨slot, hs, hv⟩ := hempty
        refine ⟨slot, ?_, hv⟩
        have h2 : ((i + 1) % m.capacity + t) % m.capacity =
            (i + (t + 1)) % m.capacity := by
          rw [Nat.mod_add_mod]
          congr 1
          omega
        rw [h2]
        exact hs

theorem probe_from_any_index (m : Map) (hlen : m.ht.length = m.capacity)
    (hocc : occCount m.ht < m.capacity) (i : Nat) (hi : i < m.capacity) :
    ∃ t, t < m.capacity ∧ (∃ slot, m.ht.get? ((i + t) % m.capacity) = some slot ∧
      slot.value = none) := by
  have hcap : 0 < m.capacity := by omega
  obtain ⟨j, slot, hj, hv⟩ := exists_empty_slot m.ht (by omega)
  have hjlt : j < m.capacity := by
    rcases List.get?_eq_some.1 hj with ⟨hlt, -⟩
    omega
  refine ⟨(m.capacity + j - i) % m.capacity, Nat.mod_lt _ hcap, slot, ?_, hv⟩
  have h1 : (i + (m.capacity + j - i) % m.capacity) % m.capacity = j := by
    rw [Nat.add_mod_mod]
    have h2 : i + (m.capacity + j - i) = m.capacity + j := by omega
    rw [h2, Nat.add_mod_left, Nat.mod_eq_of_lt hjlt]
  rw [h1]
  exact hj

theorem set_loop_returns_stored_key (m0 m1 : Map) (k : CStr) (v : Option Nat)
    (index fuel : Nat) (m2 : Map) (r : CStr)
    (hitems : m1.items = m0.items)
    (hmem : ∀ e ∈ m1.ht, e = ⟨none, none⟩ ∨ e ∈ m0.ht)
    (h : ht_entry_set_loop m1 k v index fuel = some (m2, r)) :
    (∃ j, m2.ht.get? j = some ⟨some r, v⟩) ∧
    ((r = k ∧ m2.items = m0.items + 1) ∨
     (r.bytes = k.bytes ∧ m2.items = m0.items ∧
       ∃ e ∈ m0.ht, e.key = some r ∧ e.value.isSome)) := by
  rcases entry_set_loop_some m1 k v fuel index m2 r h with
    ⟨j, slot, hj, hval, hm2, hr⟩ | ⟨j, slot, sk, hj, hval, hkey, hb, hm2, hr⟩
  · have hjlt : j < m1.ht.length := by
      rcases List.get?_eq_some.1 hj with ⟨hlt, -⟩
      exact hlt
    subst hm2
    subst hr
    refine ⟨⟨j, ?_⟩, Or.inl ⟨rfl, by simpa using hitems⟩⟩
    simpa using List.getElem?_set_eq_of_lt (⟨some r, v⟩ : HtEntry) hjlt
  · have hjlt : j < m1.ht.length := by
      rcases List.get?_eq_some.1 hj with ⟨hlt, -⟩
      exact hlt
    subst hm2
    subst hr
    refine ⟨⟨j, ?_⟩, Or.inr ⟨hb, by simpa using hitems, slot, ?_, hkey, hval⟩⟩
    · simpa using List.getElem?_set_eq_of_lt (⟨some r, v⟩ : HtEntry) hjlt
    · rcases hmem slot (List.get?_mem hj) with h1 | h1
      · rw [h1] at hval; simp at hval
      · exact h1

/-! ## Claim theorems -/

/-- C1: the round-trip-across-resize property fails on the code.  After
`create(4); set("foo",1); set("bar",2)` the key "foo" is retrievable with
value 1; the next `set("baz",3)` triggers the resize (which succeeds, and
capacity doubles to 8), yet afterwards `get("foo")` returns "not found":
`ht_expand` copies slots positionally over indices `0 ≤ i < items` instead
of re-homing each entry at `hash(key) mod new_capacity`, so the entry for
"foo" (stored at slot 3) is dropped. -/
theorem c1_resize_loses_inserted_key :
    ht_get c1pre fooK = some (some 1) ∧
    (ht_set c1pre (some bazK) (some 3)).snd = some bazK ∧
    c1post.capacity = 8 ∧
    ht_get c1post fooK = some none := by decide

/-- C2: in the concrete scenario `create(4); set("foo",2); set("bar",1);
set("bar",3)` the code yields capacity 8 and `get("bar") = 3` as claimed,
but `length()` is 3 (not 2) and `get("foo")` is "not found" (not 2): the
resize before the third call drops both stored entries, and the third call
re-inserts "bar" fresh, incrementing `items` again. -/
theorem c2_concrete_scenario_on_code :
    ht_length c2state = 3 ∧
    ht_get c2state barK = some (some 3) ∧
    c2state.capacity = 8 ∧
    ht_get c2state fooK = some none := by decide

/-- C3 counterexample: `ht_set` does not reject the reserved "empty"
sentinel (NULL) as a value.  On a fresh map, setting "foo" to the NULL
value succeeds (the stored key pointer is returned, not NULL) and the map
state is modified: the slot is written and `items` becomes 1. -/
theorem c3_null_value_is_accepted :
    (ht_set (ht_new_map 4) (some fooK) none).snd = some fooK ∧
    (ht_set (ht_new_map 4) (some fooK) none).fst.items = 1 ∧
    (ht_set (ht_new_map 4) (some fooK) none).fst.ht.get? 3 =
      some ⟨some fooK, none⟩ := by decide

/-- C3 (amended): `ht_set` fails (returns NULL) when the key is NULL, and
in that case no state of the map is modified; a NULL value, by contrast, is
not rejected. -/
theorem c3_null_key_fails_unchanged (m : Map) (value : Option Nat) :
    ht_set m none value = (m, none) := rfl

/-- C4: a key can occupy two slots of the slot array.  After `create(4);
set("ac",1); set("bar",2)`, the third call `set("ac",7)` first triggers the
resize, which positionally copies the entry for "ac" to slot 1 of the new
capacity-8 array; the call then probes from `hash("ac") mod 8 = 5`, finds
slot 5 empty, and inserts "ac" a second time: the same key now sits in
slots 1 and 5. -/
theorem c4_duplicate_key_after_resize :
    c4state.ht.get? 1 = some ⟨some acK, some 1⟩ ∧
    c4state.ht.get? 5 = some ⟨some acK, some 7⟩ ∧ (1 : Nat) ≠ 5 := by decide

/-- C6: when doubling the capacity wraps around the `size_t` range,
`ht_expand` fails, and a `ht_set` that needs to grow returns NULL with the
map left entirely unchanged (the overflow test precedes every write). -/
theorem c6_overflow_fails_set_unchanged (m : Map) (key : Option CStr)
    (value : Option Nat) (h1 : 2 ^ 63 ≤ m.capacity) (h2 : m.capacity < U64) :
    ht_expand m = none ∧
    (ht_length m ≥ m.capacity / 2 → ht_set m key value = (m, none)) := by
  have hwrap : m.capacity * 2 % U64 < m.capacity := by
    unfold U64 at h2 ⊢
    omega
  have hexp : ht_expand m = none := by
    unfold ht_expand
    simp [hwrap]
  refine ⟨hexp, fun htrig => ?_⟩
  cases key with
  | none => rfl
  | some k => simp [ht_set, ht_length] at htrig ⊢; simp [htrig, hexp]

/-- C6 witness: a map whose capacity is `2 ^ 63` (with `2 ^ 62` items, so a
set triggers growth) hits the overflow branch and is left unchanged. -/
theorem c6_overflow_witness :
    ht_expand ⟨[], 2 ^ 63, 2 ^ 62⟩ = none ∧
    ht_set ⟨[], 2 ^ 63, 2 ^ 62⟩ (some fooK) (some 1) =
      (⟨[], 2 ^ 63, 2 ^ 62⟩, none) :=
  ⟨(c6_overflow_fails_set_unchanged ⟨[], 2 ^ 63, 2 ^ 62⟩ (some fooK) (some 1)
      (by decide) (by decide)).1,
   (c6_overflow_fails_set_unchanged ⟨[], 2 ^ 63, 2 ^ 62⟩ (some fooK) (some 1)
      (by decide) (by decide)).2 (by decide)⟩

/-- C5: in every map state reachable from `create(c)` by set calls, after a
successful `ht_set` the load-factor invariant `items ≤ capacity / 2`
(integer division) holds: the resize check at the start of set fires before
the insert could violate the 50% bound. -/
theorem c5_load_factor_invariant (c : Nat) (m : Map) (key : Option CStr)
    (value : Option Nat) (hc : c < U64)
    (hr : ReachableFrom (ht_new_map c) m)
    (_hs : (ht_set m key value).snd.isSome) :
    (ht_set m key value).fst.items ≤ (ht_set m key value).fst.capacity / 2 :=
  (inv_set m key value (inv_reachable _ _ (inv_new_map c hc) hr)).2.2.1

/-- C5 witness: the first insert into a fresh capacity-4 map. -/
theorem c5_load_factor_witness :
    (ht_set (ht_new_map 4) (some fooK) (some 2)).snd.isSome = true ∧
    (ht_set (ht_new_map 4) (some fooK) (some 2)).fst.items ≤
      (ht_set (ht_new_map 4) (some fooK) (some 2)).fst.capacity / 2 :=
  ⟨by decide,
   c5_load_factor_invariant 4 (ht_new_map 4) (some fooK) (some 2) (by decide)
     ReachableFrom.refl (by decide)⟩

/-- C7: on every map reachable from `create(c)` with `c > 0` by set calls,
the probe loops terminate within at most `capacity` slot visits (the fuel
of the embedded loops is exactly `capacity`): `ht_get` always reaches an
empty slot or a matching key, and the probe loop of `ht_set` likewise, so a
set can only fail through a failing expand. -/
theorem c7_probe_loops_terminate (c : Nat) (m : Map) (hc : 0 < c)
    (hc2 : c < U64) (hr : ReachableFrom (ht_new_map c) m) :
    (∀ key : CStr, ht_get m key ≠ none) ∧
    (∀ (key : CStr) (value : Option Nat),
      (ht_set m (some key) value).snd = none →
      ht_length m ≥ m.capacity / 2 ∧ ht_expand m = none) := by
  obtain ⟨hlen, hcap, hload, hocc, hkeys⟩ :=
    inv_reachable _ _ (inv_new_map c hc2) hr
  have hcle : c ≤ m.capacity := cap_le_reachable _ _ hr
  have hcpos : 0 < m.capacity := by omega
  constructor
  · intro key
    have hoccap : occCount m.ht < m.capacity := by omega
    have hidx : ht__hash key.bytes % m.capacity < m.capacity :=
      Nat.mod_lt _ hcpos
    obtain ⟨t, ht', hempty⟩ := probe_from_any_index m hlen hoccap _ hidx
    exact Option.isSome_iff_ne_none.1
      (get_loop_finds m key hlen hkeys t _ m.capacity ht' hidx hempty)
  · intro key value hfail
    by_cases htrig : ht_length m ≥ m.capacity / 2
    · cases hexp : ht_expand m with
      | none => exact ⟨htrig, rfl⟩
      | some m1 =>
        exfalso
        obtain ⟨hlen1, hcap1, hload1, hocc1, hkeys1⟩ :=
          inv_expand m m1 ⟨hlen, hcap, hload, hocc, hkeys⟩ hexp
        have hc1pos : 0 < m1.capacity :=
          Nat.lt_of_lt_of_le hcpos (ht_expand_some m m1 hexp).2.1
        have hoccap1 : occCount m1.ht < m1.capacity := by omega
        have hidx : ht__hash key.bytes % m1.capacity < m1.capacity :=
          Nat.mod_lt _ hc1pos
        obtain ⟨t, ht', hempty⟩ := probe_from_any_index m1 hlen1 hoccap1 _ hidx
        obtain ⟨p, hp⟩ := Option.isSome_iff_exists.1
          (set_loop_finds m1 key value hlen1 hkeys1 t _ m1.capacity ht' hidx
            hempty)
        obtain ⟨m2, r⟩ := p
        have hp' : ht_entry_set m1 (ht__hash key.bytes % m1.capacity) key value
            = some (m2, r) := hp
        simp only [ht_set, if_pos htrig, hexp, hp'] at hfail
        simp at hfail
    · exfalso
      have hoccap : occCount m.ht < m.capacity := by omega
      have hidx : ht__hash key.bytes % m.capacity < m.capacity :=
        Nat.mod_lt _ hcpos
      obtain ⟨t, ht', hempty⟩ := probe_from_any_index m hlen hoccap _ hidx
      obtain ⟨p, hp⟩ := Option.isSome_iff_exists.1
        (set_loop_finds m key value hlen hkeys t _ m.capacity ht' hidx hempty)
      obtain ⟨m2, r⟩ := p
      have hp' : ht_entry_set m (ht__hash key.bytes % m.capacity) key value
          = some (m2, r) := hp
      simp only [ht_set, if_neg htrig, hp'] at hfail
      simp at hfail

/-- C7 witness: lookups on the fresh capacity-4 map terminate. -/
theorem c7_probe_witness : ht_get (ht_new_map 4) fooK ≠ none :=
  (c7_probe_loops_terminate 4 (ht_new_map 4) (by decide) (by decide)
    ReachableFrom.refl).1 fooK

/-- C9: every successful `ht_set` returns the key pointer stored in the
slot it wrote.  For a fresh insert the slot holds the key argument (and
`items` grew by one); for an update of an existing key the returned pointer
is a key that was already stored in the map before the call — only the
value in the slot is replaced, while the key argument of the update call is
discarded (it agrees with the returned key only up to `strcmp`). -/
theorem c9_set_returns_stored_key (m : Map) (k : CStr) (v : Option Nat)
    (m2 : Map) (r : CStr) (h : ht_set m (some k) v = (m2, some r)) :
    (∃ j, m2.ht.get? j = some ⟨some r, v⟩) ∧
    ((r = k ∧ m2.items = m.items + 1) ∨
     (r.bytes = k.bytes ∧ m2.items = m.items ∧
       ∃ e ∈ m.ht, e.key = some r ∧ e.value.isSome)) := by
  by_cases htrig : ht_length m ≥ m.capacity / 2
  · simp only [ht_set, if_pos htrig] at h
    cases hexp : ht_expand m with
    | none => simp only [hexp] at h; simp at h
    | some m1 =>
      simp only [hexp] at h
      cases hprobe : ht_entry_set m1 (ht__hash k.bytes % m1.capacity) k v with
      | none => simp only [hprobe] at h; simp at h
      | some p =>
        obtain ⟨m2x, rx⟩ := p
        simp only [hprobe] at h
        injection h with h1 h2
        subst h1
        injection h2 with h3
        subst h3
        exact set_loop_returns_stored_key m m1 k v _ _ _ _
          (ht_expand_some m m1 hexp).2.2.1
          (ht_expand_some m m1 hexp).2.2.2.2.2 hprobe
  · simp only [ht_set, if_neg htrig] at h
    cases hprobe : ht_entry_set m (ht__hash k.bytes % m.capacity) k v with
    | none => simp only [hprobe] at h; simp at h
    | some p =>
      obtain ⟨m2x, rx⟩ := p
      simp only [hprobe] at h
      injection h with h1 h2
      subst h1
      injection h2 with h3
      subst h3
      exact set_loop_returns_stored_key m m k v _ _ _ _ rfl
        (fun e he => Or.inr he) hprobe

/-- C9 witness: updating the key "k" through a second pointer (`kNew`)
returns the originally stored pointer `kOld`, leaves `items` unchanged, and
the written slot holds `kOld` with the new value. -/
theorem c9_update_witness :
    (∃ j, c9post.ht.get? j = some ⟨some kOld, some 6⟩) ∧
    ((kOld = kNew ∧ c9post.items = c9pre.items + 1) ∨
     (kOld.bytes = kNew.bytes ∧ c9post.items = c9pre.items ∧
       ∃ e ∈ c9pre.ht, e.key = some kOld ∧ e.value.isSome)) :=
  c9_set_returns_stored_key c9pre kNew (some 6) c9post kOld (by decide)

/-- C10: from `create(c)` with `c > 0`, every reachable map still has a
strictly positive capacity (a successful expand only ever enlarges it), so
the index computation `hash(key) mod capacity` in set and get is
well-defined: the modulus is never zero. -/
theorem c10_capacity_stays_positive (c : Nat) (m : Map) (hc : 0 < c)
    (hr : ReachableFrom (ht_new_map c) m) :
    0 < m.capacity ∧
    ∀ key : CStr, ht__hash key.bytes % m.capacity < m.capacity := by
  have h1 : c ≤ m.capacity := cap_le_reachable _ _ hr
  have h2 : 0 < m.capacity := by omega
  exact ⟨h2, fun key => Nat.mod_lt _ h2⟩

/-- C10 witness: the fresh capacity-4 map. -/
theorem c10_capacity_witness :
    0 < (ht_new_map 4).capacity ∧
    ht__hash fooK.bytes % (ht_new_map 4).capacity < (ht_new_map 4).capacity :=
  ⟨(c10_capacity_stays_positive 4 (ht_new_map 4) (by decide)
      ReachableFrom.refl).1,
   (c10_capacity_stays_positive 4 (ht_new_map 4) (by decide)
      ReachableFrom.refl).2 fooK⟩

/-- C8: the hash routine computes exactly the 64-bit FNV-1a digest as the
specification describes it: start from the offset basis 14695981039346656037
and, for each byte left to right, XOR then multiply by 1099511628211, all
modulo `2 ^ 64`; as a pure function it is deterministic across calls. -/
theorem c8_hash_is_fnv1a (key : List Nat) :
    ht__hash key = fnv1a64_spec key := by
  show key.foldl _ _ = _
  unfold fnv1a64_spec
  have h : ∀ (bs : List Nat) (acc : Nat),
      bs.foldl (fun hash b => (hash ^^^ b % 256) * FNV_PRIME % U64) acc =
        fnv1a64_go bs acc := by
    intro bs
    induction bs with
    | nil => intro acc; rfl
    | cons b bs ih => intro acc; simp [List.foldl, fnv1a64_go, ih]; rfl
  exact h key FNV_OFFSET_BASIS

end Ht
